import Mathlib

/-!
Verification of the gib backup engine's core against its specification.

Shallow embedding conventions:
- byte sequences (Rust Vec<u8> / &[u8]) are modelled as `List Nat`;
- text (hashes, repository keys, path segments) as `List Char`;
- object-store paths (slash-separated) as `List (List Char)`, one entry per
  path segment, matching the `format!("{}/{}/...", ...)` constructions and
  the `split('/')` decompositions in the source;
- external crates (argon2, chacha20poly1305, zstd) are parameters of the
  embedding: a `Crypto` (resp. `ZstdModel`) bundle supplies the primitive
  functions, and theorems take the primitives' contracts as hypotheses;
- fallible Rust functions returning Result<_, String> become
  `Except String _`; a Rust `.unwrap()` that can fail is modelled with the
  `PanicOr` outcome type.
-/

namespace Gib

/-- Byte strings, Rust `Vec<u8>`. -/
abbrev Bytes := List Nat

/-- Text, Rust `String` content. -/
abbrev Chars := List Char

/-- A slash-separated object-store path, one entry per segment. -/
abbrev PathT := List Chars

/-- Shorthand turning a Lean string literal into the `List Char` model. -/
def cs (s : String) : Chars := s.toList

/-- The 4-byte magic tag b"GIB1" (src/utils.rs line 14). -/
def MAGIC : Bytes := [71, 73, 66, 49]

/-- External cryptographic primitives used by src/utils.rs: Argon2 key
derivation (`derive_key` calls `argon2.hash_password_into`, which may fail)
and the ChaCha20-Poly1305 AEAD (`cipher.encrypt` / `cipher.decrypt`, where
decryption returns an error on tag mismatch).  The embedding is
parameterised by these primitives; theorems assume their contracts
pointwise as hypotheses. -/
structure Crypto where
  kdf : Bytes → Bytes → Option Bytes
  aeadEnc : Bytes → Bytes → Bytes → Option Bytes
  aeadDec : Bytes → Bytes → Bytes → Option Bytes

/-- src/utils.rs `encrypt_bytes` (lines 35-61): derives a key from the
password and the (randomly drawn, here parameter) 16-byte salt, encrypts
`data` under the (parameter) 12-byte nonce, and frames the output as
MAGIC || salt || nonce || ciphertext. -/
def encrypt_bytes (C : Crypto) (salt nonce data password : Bytes) :
    Except String Bytes :=
  match C.kdf password salt with
  | none => .error "Argon2 failed"
  | some key =>
    match C.aeadEnc key nonce data with
    | none => .error "Encryption failed"
    | some ciphertext => .ok (MAGIC ++ salt ++ nonce ++ ciphertext)

/-- src/utils.rs `decrypt_bytes` (lines 63-82): rejects blobs shorter than
4+16+12 bytes, rejects blobs not starting with MAGIC, splits off salt
(bytes 4..20), nonce (20..32) and ciphertext (32..), derives the key and
decrypts; an AEAD failure is reported as
"Invalid password or corrupted data". -/
def decrypt_bytes (C : Crypto) (blob password : Bytes) :
    Except String Bytes :=
  if blob.length < 4 + 16 + 12 then .error "Blob too small"
  else if blob.take 4 = MAGIC then
    let salt := (blob.drop 4).take 16
    let nonce := (blob.drop 20).take 12
    let ciphertext := blob.drop 32
    match C.kdf password salt with
    | none => .error "Argon2 failed"
    | some key =>
      match C.aeadDec key nonce ciphertext with
      | none => .error "Invalid password or corrupted data"
      | some plaintext => .ok plaintext
  else .error "Not encrypted"

/-- src/utils.rs `is_encrypted` (lines 84-86). -/
def is_encrypted (data : Bytes) : Bool :=
  decide (4 ≤ data.length ∧ data.take 4 = MAGIC)

theorem framed_take4 (salt nonce ciphertext : Bytes) :
    (MAGIC ++ salt ++ nonce ++ ciphertext).take 4 = MAGIC := rfl

theorem framed_drop4 (salt nonce ciphertext : Bytes) :
    (MAGIC ++ salt ++ nonce ++ ciphertext).drop 4 =
      salt ++ (nonce ++ ciphertext) := by
  have ha : MAGIC ++ salt ++ nonce ++ ciphertext =
      MAGIC ++ (salt ++ (nonce ++ ciphertext)) := by
    simp [List.append_assoc]
  have h : (4 : Nat) = MAGIC.length := rfl
  rw [ha, h]
  exact List.drop_left MAGIC (salt ++ (nonce ++ ciphertext))

theorem framed_salt (salt nonce ciphertext : Bytes)
    (hsalt : salt.length = 16) :
    ((MAGIC ++ salt ++ nonce ++ ciphertext).drop 4).take 16 = salt := by
  rw [framed_drop4, ← hsalt]
  exact List.take_left salt (nonce ++ ciphertext)

theorem framed_nonce (salt nonce ciphertext : Bytes)
    (hsalt : salt.length = 16) (hnonce : nonce.length = 12) :
    ((MAGIC ++ salt ++ nonce ++ ciphertext).drop 20).take 12 = nonce := by
  have h20 : (MAGIC ++ salt ++ nonce ++ ciphertext).drop 20 =
      ((MAGIC ++ salt ++ nonce ++ ciphertext).drop 4).drop 16 := by
    rw [List.drop_drop]
  rw [h20, framed_drop4, ← hsalt, List.drop_left, ← hnonce]
  exact List.take_left nonce ciphertext

theorem framed_ct (salt nonce ciphertext : Bytes)
    (hsalt : salt.length = 16) (hnonce : nonce.length = 12) :
    (MAGIC ++ salt ++ nonce ++ ciphertext).drop 32 = ciphertext := by
  have h32 : (MAGIC ++ salt ++ nonce ++ ciphertext).drop 32 =
      (((MAGIC ++ salt ++ nonce ++ ciphertext).drop 4).drop 16).drop 12 := by
    rw [List.drop_drop, List.drop_drop]
  rw [h32, framed_drop4, ← hsalt, List.drop_left, ← hnonce, List.drop_left]

theorem framed_length (salt nonce ciphertext : Bytes)
    (hsalt : salt.length = 16) (hnonce : nonce.length = 12) :
    (MAGIC ++ salt ++ nonce ++ ciphertext).length =
      32 + ciphertext.length := by
  simp [MAGIC, hsalt, hnonce]
  omega

/-- Evaluation of `decrypt_bytes` on a well-formed framed blob. -/
theorem decrypt_bytes_framed (C : Crypto)
    (salt nonce ciphertext password : Bytes)
    (hsalt : salt.length = 16) (hnonce : nonce.length = 12) :
    decrypt_bytes C (MAGIC ++ salt ++ nonce ++ ciphertext) password =
      match C.kdf password salt with
      | none => .error "Argon2 failed"
      | some key =>
        match C.aeadDec key nonce ciphertext with
        | none => .error "Invalid password or corrupted data"
        | some plaintext => .ok plaintext := by
  have hnotlt : ¬ (MAGIC ++ salt ++ nonce ++ ciphertext).length <
      4 + 16 + 12 := by
    rw [framed_length salt nonce ciphertext hsalt hnonce]; omega
  simp only [decrypt_bytes, if_neg hnotlt,
    if_pos (framed_take4 salt nonce ciphertext),
    framed_salt salt nonce ciphertext hsalt,
    framed_nonce salt nonce ciphertext hsalt hnonce,
    framed_ct salt nonce ciphertext hsalt hnonce]

/-- C1: for the blob produced by `encrypt_bytes` under password `P`,
`decrypt_bytes` with `P` recovers the plaintext, and `decrypt_bytes` with a
password `P'` whose derived key the AEAD rejects returns the
"Invalid password or corrupted data" error.  The hypotheses are the
pointwise contracts of the external Argon2 and ChaCha20-Poly1305
primitives: round-trip under the right key, rejection under the key
derived from the other password. -/
theorem c1_encrypt_decrypt_inverse (C : Crypto)
    (data password password' salt nonce k k' ciphertext : Bytes)
    (hsalt : salt.length = 16) (hnonce : nonce.length = 12)
    (hk : C.kdf password salt = some k)
    (he : C.aeadEnc k nonce data = some ciphertext)
    (hd : C.aeadDec k nonce ciphertext = some data)
    (hk' : C.kdf password' salt = some k')
    (hd' : C.aeadDec k' nonce ciphertext = none) :
    encrypt_bytes C salt nonce data password =
      .ok (MAGIC ++ salt ++ nonce ++ ciphertext)
    ∧ decrypt_bytes C (MAGIC ++ salt ++ nonce ++ ciphertext) password =
      .ok data
    ∧ decrypt_bytes C (MAGIC ++ salt ++ nonce ++ ciphertext) password' =
      .error "Invalid password or corrupted data" := by
  refine ⟨?_, ?_, ?_⟩
  · simp [encrypt_bytes, hk, he]
  · rw [decrypt_bytes_framed C salt nonce ciphertext password hsalt hnonce]
    simp [hk, hd]
  · rw [decrypt_bytes_framed C salt nonce ciphertext password' hsalt hnonce]
    simp [hk', hd']

/-- A concrete crypto-primitive bundle used to witness theorems whose
hypotheses are the primitives' pointwise contracts. -/
def toyCrypto : Crypto where
  kdf := fun p _ => some p
  aeadEnc := fun k _ m => some (m ++ k)
  aeadDec := fun k _ c => if k = [1] ∧ c = [7, 1] then some [7] else none

theorem c1_encrypt_decrypt_inverse_witness :
    encrypt_bytes toyCrypto (List.replicate 16 0) (List.replicate 12 0)
      [7] [1] =
      .ok (MAGIC ++ List.replicate 16 0 ++ List.replicate 12 0 ++ [7, 1])
    ∧ decrypt_bytes toyCrypto
      (MAGIC ++ List.replicate 16 0 ++ List.replicate 12 0 ++ [7, 1]) [1] =
      .ok [7]
    ∧ decrypt_bytes toyCrypto
      (MAGIC ++ List.replicate 16 0 ++ List.replicate 12 0 ++ [7, 1]) [2] =
      .error "Invalid password or corrupted data" :=
  c1_encrypt_decrypt_inverse toyCrypto [7] [1] [2]
    (List.replicate 16 0) (List.replicate 12 0) [1] [2] [7, 1]
    (by decide) (by decide) (by decide) (by decide) (by decide)
    (by decide) (by decide)

/-! ## Repository paths (format! constructions in the source) -/

/-- Chunk blob path, `format!("{}/chunks/{}/{}", key, prefix2, rest)` where
`(prefix2, rest) = chunk_hash.split_at(2)` (backup.rs 471-472, delete.rs
202-203, restore.rs, encrypt.rs). -/
def chunkPath (key h : Chars) : PathT :=
  [key, cs "chunks", h.take 2, h.drop 2]

/-- Backup manifest path `format!("{}/backups/{}", key, hash)`
(backup.rs 284, delete.rs 167 and 328). -/
def backupPath (key bhash : Chars) : PathT :=
  [key, cs "backups", bhash]

/-- Chunk index path `format!("{}/indexes/chunks", key)` (indexes.rs 15,
backup.rs 270, delete.rs 129, encrypt.rs 54). -/
def chunkIndexPath (key : Chars) : PathT :=
  [key, cs "indexes", cs "chunks"]

/-- Path read by `list_commit_summaries`,
`format!("{}/indexes/commits", key)` (core/indexes.rs line 59). -/
def summariesReadPath (key : Chars) : PathT :=
  [key, cs "indexes", cs "commits"]

/-- Path written by `create_new_commit` for the updated summaries list,
`format!("{}/indexes/commits", key)` (core/indexes.rs line 147). -/
def summariesCreateWritePath (key : Chars) : PathT :=
  [key, cs "indexes", cs "commits"]

/-- Summaries path targeted by the encrypt conversion,
`format!("{}/indexes/commits", key)` (commands/encrypt.rs line 55). -/
def encryptSummariesPath (key : Chars) : PathT :=
  [key, cs "indexes", cs "commits"]

/-- Path the delete command writes the filtered summaries to,
`format!("{}/indexes/backups", key)` (commands/delete.rs line 146). -/
def deleteSummariesWritePath (key : Chars) : PathT :=
  [key, cs "indexes", cs "backups"]

/-- Pending-journal path `format!("{}/indexes/pending_{}", key, hash)`
(backup.rs 165-169). -/
def pendingPath (key bhash : Chars) : PathT :=
  [key, cs "indexes", cs "pending_" ++ bhash]

/-! ## Data model (core/metadata.rs) -/

/-- core/metadata.rs `BackupObject`. -/
structure BackupObjectM where
  hash : Chars
  size : Nat
  content_type : String
  permissions : Nat
  chunks : List Chars
deriving DecidableEq

/-- All chunk hashes of a backup manifest's tree, with multiplicity, in
iteration order.  The Rust `HashMap` iteration order is arbitrary; theorems
below quantify over every order. -/
def treeChunks (tree : List (Chars × BackupObjectM)) : List Chars :=
  (tree.map (fun e => e.2.chunks)).flatten

/-! ## Delete (commands/delete.rs) -/

/-- Pointwise update of the in-memory chunk index map. -/
def indexUpdate (idx : Chars → Option Nat) (h : Chars) (v : Nat) :
    Chars → Option Nat :=
  fun x => if x = h then some v else idx x

/-- One iteration of delete's chunk loop (delete.rs lines 99-111): if the
hash is present with `refcount > 0`, decrement it; when the decremented
refcount hits 0, record the hash in `chunks_to_delete` (the entry itself is
only removed from the map after the loop, lines 113-116). -/
def deleteStep (s : (Chars → Option Nat) × List Chars) (h : Chars) :
    (Chars → Option Nat) × List Chars :=
  match s.1 h with
  | some r =>
    if 0 < r then
      (indexUpdate s.1 h (r - 1), if r - 1 = 0 then s.2 ++ [h] else s.2)
    else s
  | none => s

/-- The whole refcount pass of delete (delete.rs lines 99-116): fold the
loop over every chunk hash of the manifest, then remove every hash
collected in `chunks_to_delete` from the map.  Returns the persisted index
and `chunks_to_delete`. -/
def deleteProcess (idx : Chars → Option Nat) (chunks : List Chars) :
    (Chars → Option Nat) × List Chars :=
  let s := chunks.foldl deleteStep (idx, [])
  (fun x => if x ∈ s.2 then none else s.1 x, s.2)

/-- Blob existence after delete completes (delete.rs lines 118-217): the
chunk index and the summaries are (re)written, the backup manifest blob is
deleted, and every chunk in `chunks_to_delete` is deleted. -/
def afterDeleteExists (exists0 : PathT → Bool) (key bhash : Chars)
    (toDel : List Chars) (p : PathT) : Bool :=
  if p = backupPath key bhash then false
  else if toDel.any (fun g => decide (chunkPath key g = p)) then false
  else if p = chunkIndexPath key ∨ p = deleteSummariesWritePath key then true
  else exists0 p

theorem deleteStep_fst_ne (s : (Chars → Option Nat) × List Chars)
    (g h : Chars) (hne : g ≠ h) : (deleteStep s g).1 h = s.1 h := by
  unfold deleteStep
  cases hg : s.1 g with
  | none => rfl
  | some r =>
    by_cases hr : 0 < r
    · simp [hr, indexUpdate, Ne.symm hne]
    · simp [hr]

theorem deleteStep_snd_ne (s : (Chars → Option Nat) × List Chars)
    (g h : Chars) (hne : g ≠ h) :
    (h ∈ (deleteStep s g).2 ↔ h ∈ s.2) := by
  unfold deleteStep
  cases hg : s.1 g with
  | none => rfl
  | some r =>
    by_cases hr : 0 < r
    · by_cases hz : r - 1 = 0
      · simp [hr, hz, Ne.symm hne]
      · simp [hr, hz]
    · simp [hr]

theorem foldl_deleteStep_fst (l : List Chars) :
    ∀ (idx : Chars → Option Nat) (acc : List Chars) (h : Chars) (r : Nat),
      idx h = some r →
      ((l.foldl deleteStep (idx, acc)).1) h = some (r - l.count h) := by
  induction l with
  | nil => intro idx acc h r hr; simpa using hr
  | cons a l ih =>
    intro idx acc h r hr
    rw [List.foldl_cons]
    by_cases hah : a = h
    · subst hah
      rcases Nat.eq_zero_or_pos r with hr0 | hrpos
      · subst hr0
        have hstep : deleteStep (idx, acc) a = (idx, acc) := by
          simp [deleteStep, hr]
        rw [hstep, ih idx acc a 0 hr]
        simp
      · have hstep : (deleteStep (idx, acc) a).1 = indexUpdate idx a (r - 1) ∧
            (deleteStep (idx, acc) a).2 =
              (if r - 1 = 0 then acc ++ [a] else acc) := by
          simp [deleteStep, hr, hrpos]
        have hupd : indexUpdate idx a (r - 1) a = some (r - 1) := by
          simp [indexUpdate]
        have := ih (indexUpdate idx a (r - 1))
          (if r - 1 = 0 then acc ++ [a] else acc) a (r - 1) hupd
        have hpair : deleteStep (idx, acc) a =
            (indexUpdate idx a (r - 1),
              if r - 1 = 0 then acc ++ [a] else acc) := by
          exact Prod.ext hstep.1 hstep.2
        rw [hpair, this, List.count_cons_self]
        congr 1
        omega
    · have hfst : (deleteStep (idx, acc) a).1 h = idx h :=
        deleteStep_fst_ne (idx, acc) a h hah
      have hcnt : (a :: l).count h = l.count h :=
        List.count_cons_of_ne (Ne.symm hah) l
      have hih := ih (deleteStep (idx, acc) a).1 (deleteStep (idx, acc) a).2
        h r (by rw [hfst]; exact hr)
      rw [Prod.mk.eta] at hih
      rw [hih, hcnt]

theorem foldl_deleteStep_mem (l : List Chars) :
    ∀ (idx : Chars → Option Nat) (acc : List Chars) (h : Chars) (r : Nat),
      idx h = some r →
      (h ∈ (l.foldl deleteStep (idx, acc)).2 ↔
        h ∈ acc ∨ (1 ≤ r ∧ r ≤ l.count h)) := by
  induction l with
  | nil =>
    intro idx acc h r hr
    simp only [List.foldl_nil, List.count_nil]
    constructor
    · intro hh; exact Or.inl hh
    · rintro (hh | ⟨h1, h2⟩); exact hh; omega
  | cons a l ih =>
    intro idx acc h r hr
    rw [List.foldl_cons]
    by_cases hah : a = h
    · subst hah
      rcases Nat.eq_zero_or_pos r with hr0 | hrpos
      · subst hr0
        have hstep : deleteStep (idx, acc) a = (idx, acc) := by
          simp [deleteStep, hr]
        rw [hstep, ih idx acc a 0 hr, List.count_cons_self]
        constructor
        · rintro (hh | ⟨h1, h2⟩); exact Or.inl hh; omega
        · rintro (hh | ⟨h1, h2⟩); exact Or.inl hh; omega
      · have hupd : indexUpdate idx a (r - 1) a = some (r - 1) := by
          simp [indexUpdate]
        have hpair : deleteStep (idx, acc) a =
            (indexUpdate idx a (r - 1),
              if r - 1 = 0 then acc ++ [a] else acc) := by
          simp [deleteStep, hr, hrpos]
        rw [hpair,
          ih (indexUpdate idx a (r - 1))
            (if r - 1 = 0 then acc ++ [a] else acc) a (r - 1) hupd,
          List.count_cons_self]
        by_cases hz : r - 1 = 0
        · simp only [hz, if_pos]
          constructor
          · intro _; exact Or.inr (by omega)
          · intro _; exact Or.inl (by simp)
        · simp only [hz, if_neg]
          constructor
          · rintro (hh | ⟨h1, h2⟩); exact Or.inl hh; exact Or.inr (by omega)
          · rintro (hh | ⟨h1, h2⟩); exact Or.inl hh; exact Or.inr (by omega)
    · have hfst : (deleteStep (idx, acc) a).1 h = idx h :=
        deleteStep_fst_ne (idx, acc) a h hah
      have hsnd := deleteStep_snd_ne (idx, acc) a h hah
      have hcnt : (a :: l).count h = l.count h :=
        List.count_cons_of_ne (Ne.symm hah) l
      have hih := ih (deleteStep (idx, acc) a).1 (deleteStep (idx, acc) a).2
        h r (by rw [hfst]; exact hr)
      rw [Prod.mk.eta] at hih
      rw [hih, hsnd, hcnt]

theorem chunkPath_inj (key g h : Chars)
    (he : chunkPath key g = chunkPath key h) : g = h := by
  simp only [chunkPath, List.cons.injEq, and_true] at he
  obtain ⟨-, -, h1, h2⟩ := he
  calc g = g.take 2 ++ g.drop 2 := (List.take_append_drop 2 g).symm
    _ = h.take 2 ++ h.drop 2 := by rw [h1, h2]
    _ = h := List.take_append_drop 2 h

theorem chunkPath_ne_backupPath (key h bhash : Chars) :
    chunkPath key h ≠ backupPath key bhash := by
  intro he
  have hl := congrArg List.length he
  simp [chunkPath, backupPath] at hl

theorem chunkPath_ne_chunkIndexPath (key h : Chars) :
    chunkPath key h ≠ chunkIndexPath key := by
  intro he
  have hl := congrArg List.length he
  simp [chunkPath, chunkIndexPath] at hl

theorem chunkPath_ne_deleteSummariesWritePath (key h : Chars) :
    chunkPath key h ≠ deleteSummariesWritePath key := by
  intro he
  have hl := congrArg List.length he
  simp [chunkPath, deleteSummariesWritePath] at hl

/-- C2: after delete of a backup whose tree references chunk hash `h` with
multiplicity `m = (treeChunks tree).count h` (any HashMap iteration order),
(a) if the loaded index refcount of `h` equals `m` (with `m > 0`, i.e. `h`
referenced only by this backup), then `h` is not a key of the persisted
index, `h` is scheduled in `chunks_to_delete`, and the chunk blob no longer
exists after the deletions; (b) if the refcount is `m + k` with `k > 0`
(`h` also referenced by other retained backups), the persisted refcount is
exactly `k`, `h` is not scheduled, and the chunk blob still exists. -/
theorem c2_delete_refcounts (key bhash h : Chars)
    (tree : List (Chars × BackupObjectM)) (idx : Chars → Option Nat)
    (exists0 : PathT → Bool) (k : Nat) :
    (idx h = some ((treeChunks tree).count h) ∧
        0 < (treeChunks tree).count h →
      (deleteProcess idx (treeChunks tree)).1 h = none
      ∧ h ∈ (deleteProcess idx (treeChunks tree)).2
      ∧ afterDeleteExists exists0 key bhash
          (deleteProcess idx (treeChunks tree)).2 (chunkPath key h) = false)
    ∧ (idx h = some ((treeChunks tree).count h + k) ∧ 0 < k ∧
        exists0 (chunkPath key h) = true →
      (deleteProcess idx (treeChunks tree)).1 h = some k
      ∧ h ∉ (deleteProcess idx (treeChunks tree)).2
      ∧ afterDeleteExists exists0 key bhash
          (deleteProcess idx (treeChunks tree)).2 (chunkPath key h) = true) := by
  constructor
  · rintro ⟨hA, hc⟩
    have hmem : h ∈ ((treeChunks tree).foldl deleteStep (idx, [])).2 := by
      rw [foldl_deleteStep_mem (treeChunks tree) idx [] h
        ((treeChunks tree).count h) hA]
      exact Or.inr ⟨hc, le_refl _⟩
    refine ⟨?_, ?_, ?_⟩
    · simp only [deleteProcess]
      rw [if_pos hmem]
    · exact hmem
    · by_cases h1 : chunkPath key h = backupPath key bhash
      · simp [afterDeleteExists, h1]
      · have hany : ((deleteProcess idx (treeChunks tree)).2).any
            (fun g => decide (chunkPath key g = chunkPath key h)) = true :=
          List.any_eq_true.mpr ⟨h, hmem, by simp⟩
        simp [afterDeleteExists, h1, hany]
  · rintro ⟨hB, hk, hex⟩
    have hnot : ¬ h ∈ ((treeChunks tree).foldl deleteStep (idx, [])).2 := by
      rw [foldl_deleteStep_mem (treeChunks tree) idx [] h
        ((treeChunks tree).count h + k) hB]
      rintro (hh | ⟨h1, h2⟩)
      · simp at hh
      · omega
    have hfst : ((treeChunks tree).foldl deleteStep (idx, [])).1 h =
        some ((treeChunks tree).count h + k - (treeChunks tree).count h) :=
      foldl_deleteStep_fst (treeChunks tree) idx [] h
        ((treeChunks tree).count h + k) hB
    refine ⟨?_, hnot, ?_⟩
    · simp only [deleteProcess]
      rw [if_neg hnot, hfst]
      congr 1
      omega
    · have hany : ((deleteProcess idx (treeChunks tree)).2).any
          (fun g => decide (chunkPath key g = chunkPath key h)) = false := by
        rw [List.any_eq_false]
        intro g hg
        simp only [decide_eq_true_eq]
        intro hgh
        exact hnot ((chunkPath_inj key g h hgh) ▸ hg)
      have h3 : ¬ (chunkPath key h = chunkIndexPath key ∨
          chunkPath key h = deleteSummariesWritePath key) := by
        rintro (hh | hh)
        · exact chunkPath_ne_chunkIndexPath key h hh
        · exact chunkPath_ne_deleteSummariesWritePath key h hh
      simp [afterDeleteExists, chunkPath_ne_backupPath key h bhash, hany,
        h3, hex]

/-- Concrete delete scenario used to witness the C2 theorem: the deleted
backup references chunk "aa" twice (index refcount 2, uniquely referenced)
and chunk "bb" once (index refcount 3, shared with other backups). -/
def wTree : List (Chars × BackupObjectM) :=
  [(cs "f", ⟨cs "fh", 10, "application/octet-stream", 420,
    [cs "aa", cs "bb", cs "aa"]⟩)]

/-- Concrete loaded chunk index for the C2 witness. -/
def wIdx : Chars → Option Nat :=
  fun x => if x = cs "aa" then some 2
    else if x = cs "bb" then some 3 else none

theorem c2_delete_refcounts_witness :
    ((deleteProcess wIdx (treeChunks wTree)).1 (cs "aa") = none
      ∧ cs "aa" ∈ (deleteProcess wIdx (treeChunks wTree)).2
      ∧ afterDeleteExists (fun _ => true) (cs "k") (cs "b")
          (deleteProcess wIdx (treeChunks wTree)).2
          (chunkPath (cs "k") (cs "aa")) = false)
    ∧ ((deleteProcess wIdx (treeChunks wTree)).1 (cs "bb") = some 2
      ∧ cs "bb" ∉ (deleteProcess wIdx (treeChunks wTree)).2
      ∧ afterDeleteExists (fun _ => true) (cs "k") (cs "b")
          (deleteProcess wIdx (treeChunks wTree)).2
          (chunkPath (cs "k") (cs "bb")) = true) :=
  ⟨(c2_delete_refcounts (cs "k") (cs "b") (cs "aa") wTree wIdx
      (fun _ => true) 0).1 ⟨by decide, by decide⟩,
    (c2_delete_refcounts (cs "k") (cs "b") (cs "bb") wTree wIdx
      (fun _ => true) 2).2 ⟨by decide, by decide, by decide⟩⟩

/-- C3: the summary-listing operation in the source
(`list_commit_summaries`) reads `key/indexes/commits`, and so do the
summaries rewrite in `create_new_commit` and the encrypt conversion, while
the delete command writes the filtered summaries to `key/indexes/backups`:
the read path and delete's write path are different, contradicting the
claim that both are the single path `key/indexes/backups`. -/
theorem c3_summaries_path_mismatch :
    summariesReadPath (cs "k") = [cs "k", cs "indexes", cs "commits"]
    ∧ summariesCreateWritePath (cs "k") = summariesReadPath (cs "k")
    ∧ encryptSummariesPath (cs "k") = summariesReadPath (cs "k")
    ∧ deleteSummariesWritePath (cs "k") =
        [cs "k", cs "indexes", cs "backups"]
    ∧ summariesReadPath (cs "k") ≠ deleteSummariesWritePath (cs "k") := by
  refine ⟨rfl, rfl, rfl, rfl, ?_⟩
  decide

/-! ## zstd (external crate) and the unwrap in utils.rs -/

/-- Outcome of a Rust computation that may `panic!` via `.unwrap()`. -/
inductive PanicOr (α : Type) where
  | panicked : PanicOr α
  | ok : α → PanicOr α
deriving DecidableEq

/-- The external zstd crate: `encode_all` (total on well-formed input) and
`decode_all` (fails on data that is not a valid zstd frame). -/
structure ZstdModel where
  encodeAll : Int → Bytes → Bytes
  decodeAll : Bytes → Option Bytes

/-- src/utils.rs `compress_bytes` (lines 16-18):
`zstd::encode_all(data, level).unwrap()`. -/
def compress_bytes (Z : ZstdModel) (data : Bytes) (level : Int) : Bytes :=
  Z.encodeAll level data

/-- src/utils.rs `decompress_bytes` (lines 20-22):
`zstd::decode_all(data).unwrap()` — a decode failure is a panic, not an
error value. -/
def decompress_bytes (Z : ZstdModel) (data : Bytes) : PanicOr Bytes :=
  match Z.decodeAll data with
  | some v => .ok v
  | none => .panicked

/-! ## core/crypto.rs over a modelled object store -/

/-- core/crypto.rs `ReadDecryption`. -/
structure ReadDecryption where
  bytes : Bytes
  was_encrypted : Bool
deriving DecidableEq

/-- An object-store backend state: stored blobs plus which paths currently
fail on read / write (modelling arbitrary std::io::Error outcomes). -/
structure FsModel where
  st : List (PathT × Bytes)
  failRead : PathT → Bool
  failWrite : PathT → Bool

/-- Lookup of the most recently written blob at a path. -/
def storeRead (st : List (PathT × Bytes)) (p : PathT) : Option Bytes :=
  (st.find? (fun e => decide (e.1 = p))).map (fun e => e.2)

/-- Backend `read_file`: an I/O failure or a missing blob is an error. -/
def fsRead (m : FsModel) (p : PathT) : Except String Bytes :=
  if m.failRead p then .error "io error"
  else
    match storeRead m.st p with
    | some b => .ok b
    | none => .error "No such file or directory"

/-- Backend `write_file`: stores the blob unless the path is failing. -/
def fsWrite (m : FsModel) (p : PathT) (b : Bytes) :
    Except String FsModel :=
  if m.failWrite p then .error "io error"
  else .ok { m with st := (p, b) :: m.st }

/-- core/crypto.rs `read_file_maybe_decrypt` (lines 12-50).  Line 18 is
`fs.read_file(path).await.unwrap_or_else(|_| Vec::new())`: every read
error — not only not-found — is swallowed into empty bytes, which the
empty-check then reports as a successful empty read. -/
def read_file_maybe_decrypt (C : Crypto) (m : FsModel) (path : PathT)
    (password : Option Bytes) (encrypted_without_password_error : String) :
    Except String ReadDecryption :=
  let file_bytes := match fsRead m path with
    | .ok b => b
    | .error _ => []
  if file_bytes = [] then .ok ⟨[], false⟩
  else
    let was := is_encrypted file_bytes
    match password with
    | some p =>
      if was then
        match decrypt_bytes C file_bytes p with
        | .ok d => .ok ⟨d, was⟩
        | .error e => .error e
      else .ok ⟨file_bytes, was⟩
    | none =>
      if was then .error encrypted_without_password_error
      else .ok ⟨file_bytes, was⟩

/-- The bytes core/crypto.rs `write_file_maybe_encrypt` (lines 52-68) hands
to the backend.  Line 59 is
`encrypt_bytes(data, password).unwrap_or_else(|_| Vec::new())`: an
encryption failure is swallowed into an empty blob. -/
def write_file_maybe_encrypt_bytes (C : Crypto) (salt nonce data : Bytes)
    (password : Option Bytes) : Bytes :=
  match password with
  | some p =>
    match encrypt_bytes C salt nonce data p with
    | .ok b => b
    | .error _ => []
  | none => data

/-- core/crypto.rs `write_file_maybe_encrypt` over the modelled store. -/
def write_file_maybe_encrypt (C : Crypto) (salt nonce : Bytes) (m : FsModel)
    (path : PathT) (data : Bytes) (password : Option Bytes) :
    Except String FsModel :=
  match fsWrite m path
      (write_file_maybe_encrypt_bytes C salt nonce data password) with
  | .ok m2 => .ok m2
  | .error e => .error ("Failed to write file: " ++ e)

/-- C9: when a password is present and encryption of the payload fails,
`write_file_maybe_encrypt` writes a zero-length blob at the target path
and returns Ok — the encryption error is not propagated and the stored
object silently becomes empty. -/
theorem c9_encrypt_failure_writes_empty (C : Crypto)
    (salt nonce data p : Bytes) (m : FsModel) (path : PathT) (msg : String)
    (hfail : encrypt_bytes C salt nonce data p = .error msg)
    (hw : m.failWrite path = false) :
    write_file_maybe_encrypt C salt nonce m path data (some p) =
      .ok { m with st := (path, []) :: m.st }
    ∧ storeRead ((path, []) :: m.st) path = some [] := by
  have hb : write_file_maybe_encrypt_bytes C salt nonce data (some p) = [] := by
    simp [write_file_maybe_encrypt_bytes, hfail]
  constructor
  · simp [write_file_maybe_encrypt, fsWrite, hb, hw]
  · simp [storeRead, List.find?]

/-- A crypto bundle whose key derivation always fails, witnessing the
encryption-failure path. -/
def failCrypto : Crypto where
  kdf := fun _ _ => none
  aeadEnc := fun _ _ _ => none
  aeadDec := fun _ _ _ => none

/-- An all-succeeding empty backend state. -/
def emptyFs : FsModel where
  st := []
  failRead := fun _ => false
  failWrite := fun _ => false

theorem c9_encrypt_failure_writes_empty_witness :
    write_file_maybe_encrypt failCrypto [] [] emptyFs [cs "p"] [5]
      (some [1]) = .ok { emptyFs with st := ([cs "p"], []) :: emptyFs.st }
    ∧ storeRead (([cs "p"], []) :: emptyFs.st) [cs "p"] = some [] :=
  c9_encrypt_failure_writes_empty failCrypto [] [] [5] [1] emptyFs
    [cs "p"] "Argon2 failed" rfl rfl

/-- C10: when the backend read fails for any reason (any I/O error, not
only not-found), `read_file_maybe_decrypt` returns Ok with empty bytes and
`was_encrypted = false`, for every password. -/
theorem c10_read_error_swallowed (C : Crypto) (m : FsModel) (path : PathT)
    (password : Option Bytes) (errMsg e : String)
    (h : fsRead m path = .error e) :
    read_file_maybe_decrypt C m path password errMsg =
      .ok ⟨[], false⟩ := by
  simp [read_file_maybe_decrypt, h]

/-- A backend whose reads always fail with a (non-not-found) I/O error,
while a blob is actually present at the path. -/
def failingReadFs : FsModel where
  st := [([cs "idx"], [1, 2, 3])]
  failRead := fun _ => true
  failWrite := fun _ => false

theorem c10_read_error_swallowed_witness :
    read_file_maybe_decrypt toyCrypto failingReadFs [cs "idx"]
      (some [1]) "encrypted but no password" = .ok ⟨[], false⟩ :=
  c10_read_error_swallowed toyCrypto failingReadFs [cs "idx"]
    (some [1]) "encrypted but no password" "io error" rfl

/-! ## Pending journal writes (backup.rs) and C4 -/

/-- backup.rs `watch_pending_backup` (lines 381-405): the journal is
serialized with `rmp_serde::to_vec_named` and the resulting bytes are
handed directly to `fs.write_file` — no compression and no encryption is
applied, regardless of whether a password is set. -/
def pendingStoredBytes (serialized : Bytes) : Bytes := serialized

/-- C4 counterexample: the pending-journal blob written during a backup is
the raw serialization (here the msgpack map-header byte 0x85 = 133), which
does not begin with the GIB1 magic — refuting, at this concrete input,
the claim that every blob written during a backup passes through the codec
and begins with GIB1 when a password is set. -/
theorem c4_pending_journal_plaintext_counterexample :
    pendingStoredBytes [133] = [133]
    ∧ is_encrypted (pendingStoredBytes [133]) = false := by
  exact ⟨rfl, by decide⟩

theorem is_encrypted_framed (salt nonce ct : Bytes) :
    is_encrypted (MAGIC ++ salt ++ nonce ++ ct) = true := by
  simp only [is_encrypted, decide_eq_true_eq]
  constructor
  · simp [MAGIC]
  · exact framed_take4 salt nonce ct

/-- C4 amended: every blob a backup writes through the codec path
(`write_file_maybe_encrypt` after `compress_bytes` — chunks, chunk index,
backup manifest) begins with the GIB1 magic when a password is set and the
primitives succeed; the pending journal, however, bypasses the codec: its
stored bytes are exactly the raw serialized journal. -/
theorem c4_codec_blobs_magic_but_pending_raw (C : Crypto) (Z : ZstdModel)
    (salt nonce chunk serialized p k ct : Bytes) (level : Int)
    (hk : C.kdf p salt = some k)
    (he : C.aeadEnc k nonce (compress_bytes Z chunk level) = some ct) :
    is_encrypted (write_file_maybe_encrypt_bytes C salt nonce
      (compress_bytes Z chunk level) (some p)) = true
    ∧ pendingStoredBytes serialized = serialized := by
  constructor
  · have hb : write_file_maybe_encrypt_bytes C salt nonce
        (compress_bytes Z chunk level) (some p) =
        MAGIC ++ salt ++ nonce ++ ct := by
      simp [write_file_maybe_encrypt_bytes, encrypt_bytes, hk, he]
    rw [hb]
    exact is_encrypted_framed salt nonce ct
  · rfl

/-- A zstd model whose decoder rejects everything; the identity encoder. -/
def rejectingZstd : ZstdModel where
  encodeAll := fun _ d => d
  decodeAll := fun _ => none

theorem c4_codec_blobs_magic_but_pending_raw_witness :
    is_encrypted (write_file_maybe_encrypt_bytes toyCrypto [] []
      (compress_bytes rejectingZstd [9] 3) (some [1])) = true
    ∧ pendingStoredBytes [133] = [133] :=
  c4_codec_blobs_magic_but_pending_raw toyCrypto rejectingZstd
    [] [] [9] [133] [1] [1] [9, 1] 3 rfl rfl

/-! ## Restore's chunk decode (restore.rs) and C6 -/

/-- The per-chunk decode step of restore (restore.rs lines 201-223): the
chunk blob is read via `read_file_maybe_decrypt` (whose errors become
error values via map_err), then passed to `decompress_bytes`, whose
failure is an unwrap panic. -/
def restoreChunkDecode (C : Crypto) (Z : ZstdModel) (m : FsModel)
    (key chunkHash : Chars) (password : Option Bytes) :
    PanicOr (Except String Bytes) :=
  match read_file_maybe_decrypt C m (chunkPath key chunkHash) password
      "Chunk is encrypted but no password provided" with
  | .error e => .ok (.error ("Failed to read chunk: " ++ e))
  | .ok rd =>
    match decompress_bytes Z rd.bytes with
    | .panicked => .panicked
    | .ok d => .ok (.ok d)

/-- C6: when a stored chunk blob's decrypted (or plaintext) payload is not
a valid zstd frame, the restore chunk step does not produce a Corrupt
error value: `decompress_bytes` unwraps the zstd failure, so the outcome
is a panic.  This contradicts the claim (and §7 of the spec, which assigns
decompression failure to the Corrupt error kind). -/
theorem c6_decompress_failure_panics (C : Crypto) (Z : ZstdModel)
    (m : FsModel) (key h : Chars) (password : Option Bytes)
    (rd : ReadDecryption)
    (hread : read_file_maybe_decrypt C m (chunkPath key h) password
      "Chunk is encrypted but no password provided" = .ok rd)
    (hz : Z.decodeAll rd.bytes = none) :
    restoreChunkDecode C Z m key h password = .panicked
    ∧ decompress_bytes Z rd.bytes = .panicked := by
  have hd : decompress_bytes Z rd.bytes = .panicked := by
    simp [decompress_bytes, hz]
  exact ⟨by simp [restoreChunkDecode, hread, hd], hd⟩

/-- A store holding a plaintext chunk blob whose payload is not a valid
zstd frame (a single 0 byte). -/
def badChunkFs : FsModel where
  st := [(chunkPath (cs "k") (cs "ab"), [0])]
  failRead := fun _ => false
  failWrite := fun _ => false

theorem c6_decompress_failure_panics_witness :
    restoreChunkDecode toyCrypto rejectingZstd badChunkFs
      (cs "k") (cs "ab") none = .panicked
    ∧ decompress_bytes rejectingZstd
        (⟨[0], false⟩ : ReadDecryption).bytes = .panicked :=
  c6_decompress_failure_panics toyCrypto rejectingZstd badChunkFs
    (cs "k") (cs "ab") none ⟨[0], false⟩ rfl rfl

/-! ## Prune (commands/storage/prune.rs) -/

/-- The string form of a segment path (segments joined by a slash); used
by prune's fallback when a listed path has fewer than two segments. -/
def joinSegs : PathT → Chars
  | [] => []
  | [s] => s
  | s :: rest => s ++ [Char.ofNat 47] ++ joinSegs rest

/-- prune.rs lines 88-93: the index key reconstructed from a listed chunk
path — `parts[len-2] ++ parts[len-1]` when the path has at least two
segments, else the whole path string. -/
def reconstructKey (p : PathT) : Chars :=
  if 2 ≤ p.length then p.getD (p.length - 2) [] ++ p.getD (p.length - 1) []
  else joinSegs p

/-- prune.rs lines 71-82: a listed indexes path is an orphaned journal when
its last `/`-segment starts with "pending_". -/
def pendingPred (p : PathT) : Bool :=
  decide ((p.getLast?.getD []).take 8 = cs "pending_")

/-- prune.rs lines 84-103: the paths prune deletes — listed chunk paths
whose reconstructed key is not a key of the loaded chunk index, extended
with the listed indexes paths satisfying the pending predicate. -/
def chunksToPrune (idx : Chars → Option Nat)
    (chunkPaths indexPaths : List PathT) : List PathT :=
  (chunkPaths.filter (fun p => (idx (reconstructKey p)).isNone))
    ++ indexPaths.filter pendingPred

/-- C5: prune never deletes a listed chunk path whose reconstructed hash is
a key of the loaded chunk index, and everything it deletes is either a
chunk path whose reconstructed hash is absent from the index or an
indexes path whose final segment begins with "pending_".  The two prefix
hypotheses record that the two lists come from listing `key/chunks` and
`key/indexes` respectively. -/
theorem c5_prune_spares_indexed_chunks (key : Chars)
    (idx : Chars → Option Nat) (chunkPaths indexPaths : List PathT)
    (p : PathT)
    (hc : ∀ q ∈ chunkPaths, q.take 2 = [key, cs "chunks"])
    (hi : ∀ q ∈ indexPaths, q.take 2 = [key, cs "indexes"]) :
    (p ∈ chunkPaths → (idx (reconstructKey p)).isSome →
      p ∉ chunksToPrune idx chunkPaths indexPaths)
    ∧ (∀ q ∈ chunksToPrune idx chunkPaths indexPaths,
        (q ∈ chunkPaths ∧ idx (reconstructKey q) = none)
        ∨ (q ∈ indexPaths ∧ pendingPred q = true)) := by
  constructor
  · intro hp hsome hmem
    rcases List.mem_append.mp hmem with hm | hm
    · have := (List.mem_filter.mp hm).2
      simp only [Option.isNone_iff_eq_none, decide_eq_true_eq] at this
      rw [this] at hsome
      simp at hsome
    · have hqi := hi p (List.mem_filter.mp hm).1
      have hqc := hc p hp
      rw [hqc] at hqi
      have : cs "chunks" = cs "indexes" := by
        injection hqi with h1 h2
        injection h2
      simp [cs] at this
  · intro q hq
    rcases List.mem_append.mp hq with hm | hm
    · left
      refine ⟨(List.mem_filter.mp hm).1, ?_⟩
      have := (List.mem_filter.mp hm).2
      simpa [Option.isNone_iff_eq_none] using this
    · right
      exact ⟨(List.mem_filter.mp hm).1, (List.mem_filter.mp hm).2⟩

/-- Concrete chunk index for the C5 witness: only hash "aabb" is live. -/
def wPruneIdx : Chars → Option Nat :=
  fun x => if x = cs "aabb" then some 1 else none

/-- Listed chunk paths for the C5 witness. -/
def wChunkPaths : List PathT :=
  [[cs "k", cs "chunks", cs "aa", cs "bb"],
    [cs "k", cs "chunks", cs "cc", cs "dd"]]

/-- Listed indexes paths for the C5 witness. -/
def wIndexPaths : List PathT :=
  [[cs "k", cs "indexes", cs "pending_x"], [cs "k", cs "indexes", cs "chunks"]]

theorem c5_prune_spares_indexed_chunks_witness :
    ([cs "k", cs "chunks", cs "aa", cs "bb"] : PathT) ∉
      chunksToPrune wPruneIdx wChunkPaths wIndexPaths :=
  (c5_prune_spares_indexed_chunks (cs "k") wPruneIdx wChunkPaths
    wIndexPaths [cs "k", cs "chunks", cs "aa", cs "bb"]
    (by decide) (by decide)).1 (by decide) (by decide)

/-! ## Local directory-backed stores (fs/local.rs, storage_clients/local.rs) -/

/-- A local filesystem: regular files (with contents) and directories,
keyed by absolute segment path. -/
structure DiskState where
  files : List (PathT × Bytes)
  dirs : List PathT

/-- Whether a path exists on disk (as a file or a directory). -/
def diskExists (d : DiskState) (p : PathT) : Bool :=
  d.files.any (fun e => decide (e.1 = p)) || d.dirs.any (fun q => decide (q = p))

/-- Whether a path lies under a walk root. -/
def underRoot (root p : PathT) : Bool :=
  decide (p.take root.length = root)

/-- WalkDir::new(root) as consumed by both local `list_files`
implementations: on a nonexistent root the first yielded entry is an `Err`,
which the `entry?` inside the loop propagates; otherwise it yields every
regular file under the root. -/
def walkDirFiles (d : DiskState) (root : PathT) :
    Except String (List PathT) :=
  if diskExists d root = false then
    .error "No such file or directory"
  else .ok ((d.files.map (fun e => e.1)).filter (underRoot root))

/-- fs/local.rs `LocalFS::list_files` (lines 32-49): walks
`self.path.join(path)` with no existence guard, strips the base prefix
from each yielded file. -/
def localFS_list_files (d : DiskState) (base path : PathT) :
    Except String (List PathT) :=
  match walkDirFiles d (base ++ path) with
  | .error e => .error e
  | .ok l => .ok (l.map (fun p => p.drop base.length))

/-- storage_clients/local.rs `LocalClientStorage::list_files`
(lines 35-58): same walk, but guarded by
`if !full_path.exists() { return Ok(files) }`. -/
def localClientStorage_list_files (d : DiskState) (base path : PathT) :
    Except String (List PathT) :=
  if diskExists d (base ++ path) = false then .ok []
  else localFS_list_files d base path

/-- C7: on a prefix that does not exist in the store, the guarded
`LocalClientStorage::list_files` returns an empty list, but the unguarded
`LocalFS::list_files` — the implementation behind `get_fs`, used by the
current commands — propagates the WalkDir root error instead of returning
an empty sequence, contradicting the claim for that directory-backed
store. -/
theorem c7_list_files_nonexistent (d : DiskState) (base path : PathT)
    (h : diskExists d (base ++ path) = false) :
    localClientStorage_list_files d base path = .ok []
    ∧ localFS_list_files d base path =
      .error "No such file or directory" := by
  constructor
  · simp [localClientStorage_list_files, h]
  · simp [localFS_list_files, walkDirFiles, h]

/-- An empty local filesystem. -/
def emptyDisk : DiskState where
  files := []
  dirs := []

theorem c7_list_files_nonexistent_witness :
    localClientStorage_list_files emptyDisk [] [cs "nope"] = .ok []
    ∧ localFS_list_files emptyDisk [] [cs "nope"] =
      .error "No such file or directory" :=
  c7_list_files_nonexistent emptyDisk [] [cs "nope"] rfl

/-! ## The per-file chunking loop (backup.rs backup_file) -/

/-- backup.rs `backup_file` (lines 432-514): the read loop fills a buffer
of `chunk_size` bytes and stops at the first zero-length read — at EOF, or
immediately when `chunk_size = 0` (zero-length buffer).  Returns the raw
chunk slices in order. -/
def chunkify (c : Nat) (content : Bytes) : List Bytes :=
  if h : content = [] ∨ c = 0 then []
  else content.take c :: chunkify c (content.drop c)
termination_by content.length
decreasing_by
  simp only [List.length_drop]
  have h1 : content ≠ [] := by tauto
  have h2 : c ≠ 0 := by tauto
  exact Nat.sub_lt (List.length_pos.mpr h1) (Nat.pos_of_ne_zero h2)

/-- The `BackupObject` built by `backup_file` (lines 516-547) for a file
with the given raw content: the running SHA-256 hasher is updated with
each chunk read and finalized at EOF, so the file hash is the digest of
the concatenation of the chunks read; `size` comes from the file
metadata; the chunk list is the per-chunk digests in order.  The SHA-256
primitive (sha2 crate) is the parameter `sha`. -/
def backup_file_result (sha : Bytes → Chars) (perm : Nat) (c : Nat)
    (content : Bytes) : BackupObjectM where
  hash := sha (chunkify c content).flatten
  size := content.length
  content_type := "application/octet-stream"
  permissions := perm
  chunks := (chunkify c content).map sha

theorem chunkify_nil (c : Nat) : chunkify c [] = [] := by
  rw [chunkify]
  simp

theorem chunkify_length_exact (c : Nat) (hc : 0 < c) :
    ∀ (N : Nat) (content : Bytes), content.length = N * c →
      (chunkify c content).length = N := by
  intro N
  induction N with
  | zero =>
    intro content hlen
    have : content = [] := List.eq_nil_of_length_eq_zero (by omega)
    rw [this, chunkify_nil]
    rfl
  | succ n ih =>
    intro content hlen
    have hne : content ≠ [] := by
      intro hnil
      subst hnil
      have h0 : (0 : Nat) = (n + 1) * c := by simpa using hlen
      have hpos : 0 < (n + 1) * c := Nat.mul_pos (Nat.succ_pos n) hc
      omega
    rw [chunkify]
    rw [dif_neg (by push_neg; exact ⟨hne, by omega⟩)]
    have hdrop : (content.drop c).length = n * c := by
      simp only [List.length_drop]
      rw [hlen]
      have : (n + 1) * c = n * c + c := by ring
      omega
    simp only [List.length_cons, ih (content.drop c) hdrop]

/-- C8: a zero-byte file yields a `BackupObject` with an empty chunk list,
size 0 and hash `SHA-256("")` (the digest of the empty byte sequence);
and a file of exactly `N * c` bytes with chunk size `c > 0` yields exactly
`N` chunk hashes, with no extra tail chunk. -/
theorem c8_chunking_boundaries (sha : Bytes → Chars) (perm c N : Nat)
    (content : Bytes) :
    ((backup_file_result sha perm c []).chunks = []
      ∧ (backup_file_result sha perm c []).size = 0
      ∧ (backup_file_result sha perm c []).hash = sha [])
    ∧ (0 < c → content.length = N * c →
        (backup_file_result sha perm c content).chunks.length = N) := by
  constructor
  · refine ⟨?_, rfl, ?_⟩
    · simp [backup_file_result, chunkify_nil]
    · simp [backup_file_result, chunkify_nil]
  · intro hc hlen
    simp only [backup_file_result, List.length_map]
    exact chunkify_length_exact c hc N content hlen

/-- A stand-in digest function for evaluating the chunking witness. -/
def toySha (b : Bytes) : Chars := b.map (fun n => Char.ofNat (48 + n))

theorem c8_chunking_boundaries_witness :
    ((backup_file_result toySha 420 2 []).chunks = []
      ∧ (backup_file_result toySha 420 2 []).size = 0
      ∧ (backup_file_result toySha 420 2 []).hash = toySha [])
    ∧ (backup_file_result toySha 420 2 [1, 2, 3, 4]).chunks.length = 2 :=
  ⟨(c8_chunking_boundaries toySha 420 2 2 [1, 2, 3, 4]).1,
    (c8_chunking_boundaries toySha 420 2 2 [1, 2, 3, 4]).2
      (by decide) (by decide)⟩

end Gib
